import Mathlib

/-!
# Verification of the SEAM input-file readers

Shallow embedding of the two source files of the repository:

* MatFileReader.h — class SubsystemMaterial, class MatFileReader with
  readMatFile (the material-file parser) and displayMaterials;
* the unnamed main translation unit — the manifest loop that classifies
  paths by extension and stores them in a FileManager.

Strings are modelled as lists of characters (the files are ASCII).
Lines of a file are given as a list of such strings; the stream getline
loop is a fold over that list.  An unopenable file is modelled as the
content being absent (Option.none).

std::istream extraction of a double reads, after skipping whitespace, the
longest prefix of the remaining characters that forms a floating-point
literal (sign, digits, optional fraction, optional exponent); extraction
fails when no such prefix exists.  The parsed properties are modelled as
the accepted numeric lexemes (lists of characters) rather than as IEEE
doubles: every claim under study concerns which lexemes are consumed and
in what order, never the rounded numeric value.
-/

/-- The null character: the value of std::string operator[] at the
terminating position, as read by line[0] on an empty line. -/
def nul : Char := Char.ofNat 0

/-- Whitespace for the classic-locale isspace used by istream extraction. -/
def isWS (c : Char) : Bool :=
  c == ' ' || c == '\t' || c == '\n' || c == '\x0b' || c == '\x0c' || c == '\r'

/-- Fueled worker for whitespace tokenization (the effect of repeated
istream string extraction).  The fuel is only a termination device; with
fuel above the length of the list the value is independent of it. -/
def tokenizeF : Nat → List Char → List (List Char)
  | 0, _ => []
  | _ + 1, [] => []
  | n + 1, c :: cs =>
    if isWS c then tokenizeF n cs
    else (c :: cs.takeWhile (fun x => !isWS x)) ::
         tokenizeF n (cs.dropWhile (fun x => !isWS x))

/-- The whitespace tokens of a line, in order: what successive
iss >> tok extractions of std::string values produce. -/
def tokenize (cs : List Char) : List (List Char) :=
  tokenizeF (cs.length + 1) cs

/-- Split a character list into its maximal digit prefix and the rest. -/
def spanDigits (cs : List Char) : List Char × List Char :=
  (cs.takeWhile Char.isDigit, cs.dropWhile Char.isDigit)

/-- The fractional part of a floating-point literal: a decimal point
followed by any run of digits, or nothing. -/
def parseFrac : List Char → List Char × List Char
  | [] => ([], [])
  | c :: r =>
    if c = '.' then (c :: (spanDigits r).1, (spanDigits r).2)
    else ([], c :: r)

/-- The exponent part of a floating-point literal: e or E, an optional
sign, and at least one digit; if the digits are missing the scanner
backs up and contributes nothing (strtod semantics). -/
def parseExp : List Char → List Char × List Char
  | [] => ([], [])
  | c :: r =>
    if c = 'e' ∨ c = 'E' then
      match r with
      | [] => ([], [c])
      | s :: r' =>
        if s = '+' ∨ s = '-' then
          if (spanDigits r').1.isEmpty then ([], c :: s :: r')
          else (c :: s :: (spanDigits r').1, (spanDigits r').2)
        else
          if (spanDigits (s :: r')).1.isEmpty then ([], c :: s :: r')
          else (c :: (spanDigits (s :: r')).1, (spanDigits (s :: r')).2)
    else ([], c :: r)

/-- Unsigned floating-point literal: digits, optional fraction, optional
exponent; at least one digit must occur in the mantissa.  Returns the
lexeme and the remaining characters, or none when no literal starts
here. -/
def parseNumCore (cs : List Char) : Option (List Char × List Char) :=
  if (spanDigits cs).1.isEmpty && (parseFrac (spanDigits cs).2).1.length < 2 then
    none
  else
    some ((spanDigits cs).1 ++ (parseFrac (spanDigits cs).2).1 ++
            (parseExp (parseFrac (spanDigits cs).2).2).1,
          (parseExp (parseFrac (spanDigits cs).2).2).2)

/-- One istream double extraction, applied after whitespace skipping: an
optional sign followed by an unsigned literal. -/
def parseNum : List Char → Option (List Char × List Char)
  | [] => none
  | c :: cs =>
    if c = '+' ∨ c = '-' then
      match parseNumCore cs with
      | some (l, r) => some (c :: l, r)
      | none => none
    else parseNumCore (c :: cs)

/-- Fueled worker for the properties loop while (iss >> prop): skip
whitespace, extract a double, repeat until an extraction fails. -/
def readPropsF : Nat → List Char → List (List Char)
  | 0, _ => []
  | n + 1, cs =>
    match parseNum (cs.dropWhile isWS) with
    | none => []
    | some (lex, rest) => lex :: readPropsF n rest

/-- The numeric lexemes consumed from a properties line by the loop
while (iss >> prop), in order. -/
def readProps (cs : List Char) : List (List Char) :=
  readPropsF (cs.length + 1) cs

/-- class SubsystemMaterial of MatFileReader.h.  Properties hold the
accepted numeric lexemes, standing for the stored doubles. -/
structure SubsystemMaterial where
  subsystemId : List Char
  type : List Char
  properties : List (List Char)
deriving DecidableEq

/-- The member std::map<std::string, SubsystemMaterial>, modelled as an
association list with unique keys (the only mutations below preserve
that). -/
abbrev Materials := List (List Char × SubsystemMaterial)

/-- std::map::find, first entry with the given key. -/
def matFind : Materials → List Char → Option SubsystemMaterial
  | [], _ => none
  | (k', v) :: rest, k => if k' = k then some v else matFind rest k

/-- std::map::insert: a no-op when the key is already present (it does
NOT overwrite). -/
def matInsert (m : Materials) (k : List Char) (v : SubsystemMaterial) : Materials :=
  if (matFind m k).isSome then m else m ++ [(k, v)]

/-- The properties push loop: find the entry for the key and append the
values to its properties; when the key is absent nothing happens. -/
def matPush : Materials → List Char → List (List Char) → Materials
  | [], _, _ => []
  | (k', v) :: rest, k, vals =>
    if k' = k then
      (k', { v with properties := v.properties ++ vals }) :: rest
    else (k', v) :: matPush rest k vals

/-- The local state of one readMatFile call: the map under construction
together with the local variables currentSubsystemId, currentType and
lineCount of the source. -/
structure ParseState where
  materials : Materials
  currentSubsystemId : List Char
  currentType : List Char
  lineCount : Nat
deriving DecidableEq

/-- The two extractions iss >> currentSubsystemId >> currentType of a
header line.  A failed extraction leaves the corresponding variable
unchanged (the istream sentry fails before the string is cleared). -/
def headerExtract (prevId prevTy : List Char) (line : List Char) :
    List Char × List Char :=
  match tokenize line with
  | [] => (prevId, prevTy)
  | [t0] => (t0, prevTy)
  | t0 :: t1 :: _ => (t0, t1)

/-- The body of the getline loop of readMatFile, one line: the three
skip tests on line[0], then the two lineCount-guarded branches.  The
redundant re-tests of line[0] inside the branches are kept as in the
source. -/
def processLine (st : ParseState) (line : List Char) : ParseState :=
  let c0 := line.headD nul
  if c0 = '!' then st
  else if c0 = '(' then st
  else if c0 = ')' then st
  else if ¬ line.isEmpty ∧ c0 ≠ '(' ∧ c0 ≠ '!' ∧ st.lineCount = 1 then
    let pr := headerExtract st.currentSubsystemId st.currentType line
    { materials := matInsert st.materials pr.1 ⟨pr.1, pr.2, []⟩,
      currentSubsystemId := pr.1,
      currentType := pr.2,
      lineCount := 2 }
  else if ¬ line.isEmpty ∧ c0 ≠ '(' ∧ c0 ≠ '!' ∧ st.lineCount = 2 then
    { st with
      materials := matPush st.materials st.currentSubsystemId (readProps line),
      lineCount := 1 }
  else st

/-- class MatFileReader: its only data member is the materials map,
which persists across readMatFile calls. -/
structure MatFileReader where
  materials : Materials
deriving DecidableEq

/-- The local variables of readMatFile at entry: empty current id and
type, lineCount = 1. -/
def initState (mats : Materials) : ParseState :=
  { materials := mats, currentSubsystemId := [], currentType := [], lineCount := 1 }

/-- The diagnostic written to std::cerr when the file cannot be opened. -/
def openFailMsg (filename : List Char) : List Char :=
  ("Failed to open file: ").data ++ filename

/-- void MatFileReader::readMatFile(const std::string&).  The file
content is none when the ifstream fails to open.  Returns the updated
reader together with the list of std::cerr diagnostics the call emits. -/
def readMatFile (rdr : MatFileReader) (filename : List Char)
    (content : Option (List (List Char))) : MatFileReader × List (List Char) :=
  match content with
  | none => (rdr, [openFailMsg filename])
  | some lines =>
    ({ materials := (lines.foldl processLine (initState rdr.materials)).materials }, [])

/-- A single parse on a fresh reader: the mapping built from a file's
lines alone. -/
def parseFile (lines : List (List Char)) : Materials :=
  (readMatFile { materials := [] } [] (some lines)).1.materials

/-- A token is numeric when one double extraction consumes it whole. -/
def isNumericToken (t : List Char) : Bool :=
  parseNum t == some (t, [])

/-- Spec-side reading of claim C3: the whitespace tokens of the
properties line that parse as floating-point numbers, taken left to
right, truncated at the first token that fails to parse as a number. -/
def specNumericTokenTruncation (line : List Char) : List (List Char) :=
  (tokenize line).takeWhile isNumericToken

/-- The characters, if any, that follow a chunk of consumed input start
at a token boundary: end of line or a whitespace character. -/
def wsBoundary : List Char → Prop
  | [] => True
  | c :: _ => isWS c = true

/-- Claim C10's invariant: every record of the map is stored under its
own subsystemId. -/
def matKeyInv (m : Materials) : Prop :=
  ∀ k v, (k, v) ∈ m → v.subsystemId = k

/-! ## The manifest loop of the unnamed main translation unit -/

/-- The five file roles of the manifest classifier. -/
inductive Role
  | mat | sub | jun | exc | par
deriving DecidableEq

/-- Whether the first list is an initial segment of the second. -/
def isPrefixB : List Char → List Char → Bool
  | [], _ => true
  | _ :: _, [] => false
  | a :: as, b :: bs => a == b && isPrefixB as bs

/-- std::string::find as a Boolean: the pattern occurs somewhere. -/
def containsSub (pat : List Char) : List Char → Bool
  | [] => isPrefixB pat []
  | c :: rest => isPrefixB pat (c :: rest) || containsSub pat rest

/-- The remainder of the string after the first occurrence of the
pattern, when the pattern occurs at all (std::string::find followed by
substr(pos + pat.length)). -/
def afterFirst (pat : List Char) : List Char → Option (List Char)
  | [] => if isPrefixB pat [] then some [] else none
  | c :: rest =>
    if isPrefixB pat (c :: rest) then some ((c :: rest).drop pat.length)
    else afterFirst pat rest

/-- The directory sentinel fileFolder = "seamInputFiles\\" of main. -/
def seamDir : List Char := ("seamInputFiles\\").data

/-- extractFilename of main: the part of the path after the directory
name, or the empty string when the directory does not occur. -/
def extractFilename (fullPath : List Char) : List Char :=
  (afterFirst seamDir fullPath).getD []

/-- The path main hands to the existence test for a manifest line:
fileFolder + extractFilename(line). -/
def checkedPath (l : List Char) : List Char :=
  seamDir ++ extractFilename l

/-- class FileManager's five per-role path slots.  The class itself is
declared in filemanager.h, which is not part of the repository
snapshot. -/
structure FileManager where
  matfil : Option (List Char) := none
  subfil : Option (List Char) := none
  jncfil : Option (List Char) := none
  excfil : Option (List Char) := none
  parfil : Option (List Char) := none
deriving DecidableEq

/-- Modelled from the spec: the setter bodies setMATFIL..setPARFIL live
in the missing filemanager.h.  Per the spec, "only the first line
matching each role test that also passes the existence check gets stored
per role slot", so a setter stores its argument only while the slot is
still unset. -/
def setSlot : Option (List Char) → List Char → Option (List Char)
  | none, p => some p
  | some q, _ => some q

/-- Dispatch of the five modelled setters. -/
def setRole (fm : FileManager) : Role → List Char → FileManager
  | Role.mat, p => { fm with matfil := setSlot fm.matfil p }
  | Role.sub, p => { fm with subfil := setSlot fm.subfil p }
  | Role.jun, p => { fm with jncfil := setSlot fm.jncfil p }
  | Role.exc, p => { fm with excfil := setSlot fm.excfil p }
  | Role.par, p => { fm with parfil := setSlot fm.parfil p }

/-- Read one role's slot. -/
def roleSlot : Role → FileManager → Option (List Char)
  | Role.mat, fm => fm.matfil
  | Role.sub, fm => fm.subfil
  | Role.jun, fm => fm.jncfil
  | Role.exc, fm => fm.excfil
  | Role.par, fm => fm.parfil

/-- The else-if chain of main: classification of a line by the first
extension marker that occurs in it, in the order .mat, .sub, .jun,
.exc, .par. -/
def roleOf (l : List Char) : Option Role :=
  if containsSub (".mat").data l then some Role.mat
  else if containsSub (".sub").data l then some Role.sub
  else if containsSub (".jun").data l then some Role.jun
  else if containsSub (".exc").data l then some Role.exc
  else if containsSub (".par").data l then some Role.par
  else none

/-- One iteration of main's manifest loop.  ex is the file-existence
oracle (whether the ifstream test on the checked path succeeds).  Lines
whose first character is not the drive sentinel C are skipped; failed
classification or a failed existence check only emits a diagnostic and
changes nothing. -/
def stepManifest (ex : List Char → Bool) (fm : FileManager) (l : List Char) :
    FileManager :=
  if l.headD nul ≠ 'C' then fm
  else
    match roleOf l with
    | some r => if ex (checkedPath l) then setRole fm r l else fm
    | none => fm

/-- The whole manifest loop, from a freshly constructed FileManager. -/
def runManifest (ex : List Char → Bool) (lines : List (List Char)) : FileManager :=
  lines.foldl (stepManifest ex) {}

/-- A manifest line is accepted for a role when it carries the drive
sentinel, classifies to that role, and passes the existence check. -/
def accepted (ex : List Char → Bool) (r : Role) (l : List Char) : Bool :=
  (l.headD nul == 'C') && (roleOf l == some r) && ex (checkedPath l)

/-! ## Helper lemmas: tokenization -/

theorem len_dropWhile_le {α : Type} (p : α → Bool) (l : List α) :
    (l.dropWhile p).length ≤ l.length := by
  induction l with
  | nil => simp
  | cons a l ih =>
    rw [List.dropWhile_cons]
    split
    · exact Nat.le_trans ih (Nat.le_succ _)
    · exact Nat.le_refl _

theorem tokenizeF_eq :
    ∀ (n m : Nat) (cs : List Char), cs.length < n → cs.length < m →
      tokenizeF n cs = tokenizeF m cs := by
  intro n
  induction n with
  | zero => intro m cs h _; exact absurd h (Nat.not_lt_zero _)
  | succ n ih =>
    intro m cs hn hm
    cases m with
    | zero => exact absurd hm (Nat.not_lt_zero _)
    | succ m =>
      cases cs with
      | nil => rfl
      | cons c cs =>
        simp only [tokenizeF]
        have hlen : cs.length < n := Nat.lt_of_succ_lt_succ hn
        have hlen' : cs.length < m := Nat.lt_of_succ_lt_succ hm
        split
        · exact ih m cs hlen hlen'
        · have h1 : (cs.dropWhile (fun x => !isWS x)).length < n :=
            Nat.lt_of_le_of_lt (len_dropWhile_le _ _) hlen
          have h2 : (cs.dropWhile (fun x => !isWS x)).length < m :=
            Nat.lt_of_le_of_lt (len_dropWhile_le _ _) hlen'
          rw [ih m _ h1 h2]

theorem tokenize_nil : tokenize [] = [] := rfl

theorem tokenize_ws {c : Char} (cs : List Char) (h : isWS c = true) :
    tokenize (c :: cs) = tokenize cs := by
  show tokenizeF (cs.length + 2) (c :: cs) = tokenizeF (cs.length + 1) cs
  simp only [tokenizeF, h, if_true]

theorem tokenize_cons {c : Char} (cs : List Char) (h : isWS c = false) :
    tokenize (c :: cs) =
      (c :: cs.takeWhile (fun x => !isWS x)) ::
        tokenize (cs.dropWhile (fun x => !isWS x)) := by
  show tokenizeF (cs.length + 2) (c :: cs) = _
  simp only [tokenizeF, h, Bool.false_eq_true, if_false]
  rw [tokenizeF_eq (cs.length + 1) ((cs.dropWhile (fun x => !isWS x)).length + 1) _
    (Nat.lt_succ_of_le (len_dropWhile_le _ _)) (Nat.lt_succ_self _)]
  rfl

theorem tokenize_dropWhile_ws (cs : List Char) :
    tokenize (cs.dropWhile isWS) = tokenize cs := by
  induction cs with
  | nil => rfl
  | cons c cs ih =>
    rw [List.dropWhile_cons]
    split
    · rename_i h
      rw [ih, tokenize_ws cs h]
    · rfl

/-! ## Helper lemmas: the numeric scanner -/

theorem spanDigits_decomp (cs : List Char) :
    (spanDigits cs).1 ++ (spanDigits cs).2 = cs :=
  List.takeWhile_append_dropWhile ..

theorem parseFrac_decomp (cs : List Char) :
    (parseFrac cs).1 ++ (parseFrac cs).2 = cs := by
  cases cs with
  | nil => rfl
  | cons c r =>
    simp only [parseFrac]
    split
    · simpa using spanDigits_decomp r
    · rfl

theorem parseExp_decomp (cs : List Char) :
    (parseExp cs).1 ++ (parseExp cs).2 = cs := by
  cases cs with
  | nil => rfl
  | cons c r =>
    simp only [parseExp]
    split
    · cases r with
      | nil => rfl
      | cons s r' =>
        simp only []
        split
        · split
          · rfl
          · simpa using spanDigits_decomp r'
        · split
          · rfl
          · simpa using spanDigits_decomp (s :: r')
    · rfl

theorem parseNumCore_decomp {cs l r : List Char}
    (h : parseNumCore cs = some (l, r)) : l ++ r = cs ∧ l ≠ [] := by
  rw [parseNumCore] at h
  split at h
  · exact absurd h (by simp)
  · rename_i hcond
    simp only [Option.some.injEq, Prod.mk.injEq] at h
    obtain ⟨hl, hr⟩ := h
    constructor
    · subst hl hr
      rw [List.append_assoc, List.append_assoc, parseExp_decomp, parseFrac_decomp,
        spanDigits_decomp]
    · subst hl
      intro hnil
      rcases List.append_eq_nil.mp ((List.append_eq_nil.mp hnil).1) with ⟨h1, h2⟩
      simp only [Bool.and_eq_true, decide_eq_true_eq, not_and, Bool.not_eq_true] at hcond
      rw [h1, h2] at hcond
      simp at hcond

theorem parseNum_decomp {cs l r : List Char}
    (h : parseNum cs = some (l, r)) : l ++ r = cs ∧ l ≠ [] := by
  cases cs with
  | nil => exact absurd h (by simp [parseNum])
  | cons c cs =>
    simp only [parseNum] at h
    split at h
    · cases hc : parseNumCore cs with
      | none => rw [hc] at h; exact absurd h (by simp)
      | some p =>
        rw [hc] at h
        obtain ⟨l', r'⟩ := p
        simp only [Option.some.injEq, Prod.mk.injEq] at h
        obtain ⟨hl, hr⟩ := h
        have := parseNumCore_decomp hc
        subst hl hr
        exact ⟨by simpa using this.1, by simp⟩
    · exact parseNumCore_decomp h

theorem parseNum_rest_lt {cs l r : List Char}
    (h : parseNum cs = some (l, r)) : r.length < cs.length := by
  obtain ⟨hdec, hne⟩ := parseNum_decomp h
  have : cs.length = l.length + r.length := by rw [← hdec, List.length_append]
  have hl : 0 < l.length := List.length_pos.mpr hne
  omega

theorem readPropsF_succ (n : Nat) (cs : List Char) :
    readPropsF (n + 1) cs =
      match parseNum (cs.dropWhile isWS) with
      | none => []
      | some (lex, rest) => lex :: readPropsF n rest := rfl

theorem readPropsF_eq :
    ∀ (n m : Nat) (cs : List Char), cs.length < n → cs.length < m →
      readPropsF n cs = readPropsF m cs := by
  intro n
  induction n with
  | zero => intro m cs h _; exact absurd h (Nat.not_lt_zero _)
  | succ n ih =>
    intro m cs hn hm
    cases m with
    | zero => exact absurd hm (Nat.not_lt_zero _)
    | succ m =>
      rw [readPropsF_succ, readPropsF_succ]
      cases hp : parseNum (cs.dropWhile isWS) with
      | none => rfl
      | some p =>
        obtain ⟨lex, rest⟩ := p
        have hr : rest.length < cs.length :=
          Nat.lt_of_lt_of_le (parseNum_rest_lt hp) (len_dropWhile_le _ _)
        show lex :: readPropsF n rest = lex :: readPropsF m rest
        rw [ih m rest (Nat.lt_of_lt_of_le hr (Nat.lt_succ_iff.mp hn))
          (Nat.lt_of_lt_of_le hr (Nat.lt_succ_iff.mp hm))]

theorem readProps_none {cs : List Char}
    (h : parseNum (cs.dropWhile isWS) = none) : readProps cs = [] := by
  rw [readProps, readPropsF_succ, h]

theorem readProps_some {cs lex rest : List Char}
    (h : parseNum (cs.dropWhile isWS) = some (lex, rest)) :
    readProps cs = lex :: readProps rest := by
  have hr : rest.length < cs.length :=
    Nat.lt_of_lt_of_le (parseNum_rest_lt h) (len_dropWhile_le _ _)
  have h1 : readProps cs = lex :: readPropsF cs.length rest := by
    rw [readProps, readPropsF_succ, h]
  rw [h1, readProps]
  rw [readPropsF_eq cs.length (rest.length + 1) rest hr (Nat.lt_succ_self _)]

/-! ## Whitespace boundary lemmas -/

theorem isWS_cases {c : Char} (h : isWS c = true) :
    c = ' ' ∨ c = '\t' ∨ c = '\n' ∨ c = '\x0b' ∨ c = '\x0c' ∨ c = '\r' := by
  simp only [isWS, Bool.or_eq_true, beq_iff_eq] at h
  tauto

theorem wsFacts {c : Char} (h : isWS c = true) :
    c ≠ '.' ∧ c ≠ 'e' ∧ c ≠ 'E' ∧ c ≠ '+' ∧ c ≠ '-' ∧ c.isDigit = false := by
  rcases isWS_cases h with h | h | h | h | h | h <;> subst h <;>
    exact ⟨by decide, by decide, by decide, by decide, by decide, by decide⟩

theorem takeWhile_append_all {α : Type} (p : α → Bool) (a b : List α)
    (ha : ∀ x ∈ a, p x = true)
    (hb : b = [] ∨ ∃ c r, b = c :: r ∧ p c = false) :
    (a ++ b).takeWhile p = a ∧ (a ++ b).dropWhile p = b := by
  induction a with
  | nil =>
    simp only [List.nil_append]
    rcases hb with rfl | ⟨c, r, rfl, hc⟩
    · exact ⟨rfl, rfl⟩
    · rw [List.takeWhile_cons, List.dropWhile_cons]
      simp [hc]
  | cons x a ih =>
    have hx : p x = true := ha x (List.mem_cons_self ..)
    have ih' := ih fun y hy => ha y (List.mem_cons_of_mem _ hy)
    simp only [List.cons_append, List.takeWhile_cons, List.dropWhile_cons, hx,
      if_true]
    exact ⟨by rw [ih'.1], ih'.2⟩

theorem spanDigits_append (u rest : List Char) (hb : wsBoundary rest) :
    spanDigits (u ++ rest) = ((spanDigits u).1, (spanDigits u).2 ++ rest) := by
  have hdig : ∀ x ∈ (spanDigits u).1, x.isDigit = true :=
    fun x hx => List.mem_takeWhile_imp hx
  have hcond : (spanDigits u).2 ++ rest = [] ∨
      ∃ c r, (spanDigits u).2 ++ rest = c :: r ∧ c.isDigit = false := by
    cases hu2 : (spanDigits u).2 with
    | nil =>
      cases hr : rest with
      | nil => exact Or.inl rfl
      | cons d r' =>
        refine Or.inr ⟨d, r', by simp, ?_⟩
        have hd : isWS d = true := by rw [hr] at hb; exact hb
        exact (wsFacts hd).2.2.2.2.2
    | cons d t =>
      refine Or.inr ⟨d, t ++ rest, by simp, ?_⟩
      have hne : u.dropWhile Char.isDigit ≠ [] := by
        show (spanDigits u).2 ≠ []
        rw [hu2]; simp
      have := List.head_dropWhile_not Char.isDigit u hne
      have hd : (u.dropWhile Char.isDigit).head hne = d := by
        show ((spanDigits u).2).head _ = d
        simp [hu2]
      rwa [hd] at this
  have hru : u ++ rest = (spanDigits u).1 ++ ((spanDigits u).2 ++ rest) := by
    rw [← List.append_assoc, spanDigits_decomp]
  obtain ⟨h1, h2⟩ := takeWhile_append_all Char.isDigit (spanDigits u).1
    ((spanDigits u).2 ++ rest) hdig hcond
  show (List.takeWhile Char.isDigit (u ++ rest), List.dropWhile Char.isDigit (u ++ rest)) = _
  rw [hru, h1, h2]

theorem parseFrac_append (u rest : List Char) (hb : wsBoundary rest) :
    parseFrac (u ++ rest) = ((parseFrac u).1, (parseFrac u).2 ++ rest) := by
  cases u with
  | nil =>
    simp only [List.nil_append, parseFrac]
    cases rest with
    | nil => rfl
    | cons c r =>
      have hdot : c ≠ '.' := (wsFacts (show isWS c = true from hb)).1
      simp [parseFrac, hdot]
  | cons c u' =>
    by_cases hc : c = '.'
    · subst hc
      simp [List.cons_append, parseFrac, spanDigits_append u' rest hb]
    · simp [parseFrac, hc]

theorem parseExp_append (u rest : List Char) (hb : wsBoundary rest) :
    parseExp (u ++ rest) = ((parseExp u).1, (parseExp u).2 ++ rest) := by
  cases u with
  | nil =>
    simp only [List.nil_append]
    cases rest with
    | nil => rfl
    | cons c r =>
      have hf := wsFacts (show isWS c = true from hb)
      have hne : ¬ (c = 'e' ∨ c = 'E') := by
        rintro (h | h)
        · exact hf.2.1 h
        · exact hf.2.2.1 h
      simp [parseExp, hne]
  | cons c u' =>
    by_cases hce : c = 'e' ∨ c = 'E'
    · cases u' with
      | nil =>
        cases rest with
        | nil => simp [parseExp, hce]
        | cons s r =>
          have hf := wsFacts (show isWS s = true from hb)
          have hs : ¬ (s = '+' ∨ s = '-') := by
            rintro (h | h)
            · exact hf.2.2.2.1 h
            · exact hf.2.2.2.2.1 h
          have hsd : (spanDigits (s :: r)).1.isEmpty = true := by
            simp [spanDigits, List.takeWhile_cons, hf.2.2.2.2.2]
          simp [parseExp, hce, hs, hsd]
      | cons s r' =>
        by_cases hs : s = '+' ∨ s = '-'
        · have hsd := spanDigits_append r' rest hb
          by_cases he : (spanDigits r').1.isEmpty = true
          · simp [parseExp, hce, hs, hsd, he]
          · simp [parseExp, hce, hs, hsd, he]
        · have hsd := spanDigits_append (s :: r') rest hb
          simp only [List.cons_append] at hsd
          by_cases he : (spanDigits (s :: r')).1.isEmpty = true
          · simp [parseExp, hce, hs, hsd, he]
          · simp [parseExp, hce, hs, hsd, he]
    · simp [parseExp, hce]

theorem parseNumCore_append_ws (u rest : List Char) (hb : wsBoundary rest) :
    parseNumCore (u ++ rest) =
      (parseNumCore u).map (fun p => (p.1, p.2 ++ rest)) := by
  rw [parseNumCore, parseNumCore, spanDigits_append u rest hb,
      parseFrac_append (spanDigits u).2 rest hb,
      parseExp_append (parseFrac (spanDigits u).2).2 rest hb]
  split
  · rfl
  · rfl

theorem parseNum_ws_none (rest : List Char) (hb : wsBoundary rest) :
    parseNum rest = none := by
  cases rest with
  | nil => rfl
  | cons c r =>
    have hf := wsFacts (show isWS c = true from hb)
    have hsign : ¬ (c = '+' ∨ c = '-') := by
      rintro (h | h)
      · exact hf.2.2.2.1 h
      · exact hf.2.2.2.2.1 h
    rw [parseNum, if_neg hsign, parseNumCore]
    have h1 : spanDigits (c :: r) = ([], c :: r) := by
      simp [spanDigits, List.takeWhile_cons, List.dropWhile_cons, hf.2.2.2.2.2]
    have h2 : parseFrac (c :: r) = ([], c :: r) := by
      simp [parseFrac, hf.1]
    rw [h1]
    simp [h2]

theorem parseNum_append_ws (t rest : List Char) (hb : wsBoundary rest) :
    parseNum (t ++ rest) = (parseNum t).map (fun p => (p.1, p.2 ++ rest)) := by
  cases t with
  | nil =>
    rw [List.nil_append, parseNum_ws_none rest hb]
    rfl
  | cons c t' =>
    by_cases hc : c = '+' ∨ c = '-'
    · rw [List.cons_append, parseNum, parseNum, if_pos hc, if_pos hc,
        parseNumCore_append_ws t' rest hb]
      cases parseNumCore t' with
      | none => rfl
      | some p => rfl
    · rw [List.cons_append, parseNum, parseNum, if_neg hc, if_neg hc,
        ← List.cons_append, parseNumCore_append_ws (c :: t') rest hb]

theorem parseNum_full_append {t : List Char} (rest : List Char)
    (ht : parseNum t = some (t, [])) (hb : wsBoundary rest) :
    parseNum (t ++ rest) = some (t, rest) := by
  rw [parseNum_append_ws t rest hb, ht]
  rfl

theorem parseNum_none_append {t : List Char} (rest : List Char)
    (ht : parseNum t = none) (hb : wsBoundary rest) :
    parseNum (t ++ rest) = none := by
  rw [parseNum_append_ws t rest hb, ht]
  rfl

/-! ## Character-level consumption versus token-level truncation -/

theorem dropWhile_head_false {α : Type} (p : α → Bool) :
    ∀ (l : List α) {c : α} {r : List α}, l.dropWhile p = c :: r → p c = false := by
  intro l
  induction l with
  | nil => intro c r h; simp at h
  | cons x xs ih =>
    intro c r h
    rw [List.dropWhile_cons] at h
    split at h
    · exact ih h
    · rename_i hx
      cases h
      simpa using hx

theorem readProps_trunc_aux :
    ∀ (n : Nat) (cs : List Char), cs.length ≤ n →
      (∀ t ∈ tokenize cs, parseNum t = some (t, []) ∨ parseNum t = none) →
      readProps cs = (tokenize cs).takeWhile isNumericToken := by
  intro n
  induction n with
  | zero =>
    intro cs hlen _
    have h0 : cs = [] := List.length_eq_zero.mp (Nat.le_zero.mp hlen)
    subst h0
    rfl
  | succ n ih =>
    intro cs hlen hcl
    have htok : tokenize cs = tokenize (cs.dropWhile isWS) :=
      (tokenize_dropWhile_ws cs).symm
    cases hds : cs.dropWhile isWS with
    | nil =>
      have h0 : parseNum (cs.dropWhile isWS) = none := by rw [hds]; rfl
      rw [readProps_none h0, htok, hds, tokenize_nil]
      rfl
    | cons c cs0 =>
      have hc : isWS c = false := dropWhile_head_false isWS cs hds
      have htok2 : tokenize (c :: cs0) =
          (c :: cs0.takeWhile (fun x => !isWS x)) ::
            tokenize (cs0.dropWhile (fun x => !isWS x)) := tokenize_cons cs0 hc
      have hsplit : c :: cs0 =
          (c :: cs0.takeWhile (fun x => !isWS x)) ++
            cs0.dropWhile (fun x => !isWS x) := by
        rw [List.cons_append, List.takeWhile_append_dropWhile]
      have hbrest : wsBoundary (cs0.dropWhile (fun x => !isWS x)) := by
        cases hrr : cs0.dropWhile (fun x => !isWS x) with
        | nil => trivial
        | cons d r' =>
          have := dropWhile_head_false (fun x => !isWS x) cs0 hrr
          show isWS d = true
          simpa using this
      have htmem : (c :: cs0.takeWhile (fun x => !isWS x)) ∈ tokenize cs := by
        rw [htok, hds, htok2]
        exact List.mem_cons_self ..
      have hrlen : (cs0.dropWhile (fun x => !isWS x)).length ≤ n := by
        have h1 : (cs0.dropWhile (fun x => !isWS x)).length ≤ cs0.length :=
          len_dropWhile_le _ _
        have h2 : (c :: cs0).length ≤ cs.length := by
          rw [← hds]
          exact len_dropWhile_le _ _
        simp only [List.length_cons] at h2
        omega
      rcases hcl _ htmem with hfull | hnone
      · have hp : parseNum (cs.dropWhile isWS) =
            some (c :: cs0.takeWhile (fun x => !isWS x),
                  cs0.dropWhile (fun x => !isWS x)) := by
          rw [hds, hsplit]
          exact parseNum_full_append _ hfull hbrest
        rw [readProps_some hp, htok, hds, htok2, List.takeWhile_cons,
          if_pos (by simp [isNumericToken, hfull])]
        have hclrest : ∀ t ∈ tokenize (cs0.dropWhile (fun x => !isWS x)),
            parseNum t = some (t, []) ∨ parseNum t = none := by
          intro t' ht'
          apply hcl
          rw [htok, hds, htok2]
          exact List.mem_cons_of_mem _ ht'
        rw [ih _ hrlen hclrest]
      · have hp : parseNum (cs.dropWhile isWS) = none := by
          rw [hds, hsplit]
          exact parseNum_none_append _ hnone hbrest
        rw [readProps_none hp, htok, hds, htok2, List.takeWhile_cons,
          if_neg (by simp [isNumericToken, hnone])]

theorem readProps_eq_specTrunc (cs : List Char)
    (h : ∀ t ∈ tokenize cs, parseNum t = some (t, []) ∨ parseNum t = none) :
    readProps cs = specNumericTokenTruncation cs :=
  readProps_trunc_aux cs.length cs (Nat.le_refl _) h

/-! ## Map lemmas -/

theorem matFind_cons_self (k : List Char) (v : SubsystemMaterial) (rest : Materials) :
    matFind ((k, v) :: rest) k = some v := by
  simp [matFind]

theorem matFind_append_left {m : Materials} {k : List Char} {v : SubsystemMaterial}
    (ts : Materials) (h : matFind m k = some v) : matFind (m ++ ts) k = some v := by
  induction m with
  | nil => simp [matFind] at h
  | cons p m ih =>
    obtain ⟨k', v'⟩ := p
    rw [List.cons_append, matFind]
    rw [matFind] at h
    split at h
    · rename_i hk; rw [if_pos hk]; exact h
    · rename_i hk; rw [if_neg hk]; exact ih h

theorem matFind_append_none {m : Materials} {k : List Char}
    (ts : Materials) (h : matFind m k = none) : matFind (m ++ ts) k = matFind ts k := by
  induction m with
  | nil => simp
  | cons p m ih =>
    obtain ⟨k', v'⟩ := p
    rw [matFind] at h
    split at h
    · exact absurd h (by simp)
    · rename_i hk
      rw [List.cons_append, matFind, if_neg hk]
      exact ih h

theorem matInsert_found {m : Materials} {k : List Char}
    (h : (matFind m k).isSome) (v : SubsystemMaterial) : matInsert m k v = m := by
  simp [matInsert, h]

theorem matInsert_not_found {m : Materials} {k : List Char}
    (h : matFind m k = none) (v : SubsystemMaterial) :
    matInsert m k v = m ++ [(k, v)] := by
  simp [matInsert, h]

theorem matFind_matInsert_self {m : Materials} {k : List Char}
    (h : matFind m k = none) (v : SubsystemMaterial) :
    matFind (matInsert m k v) k = some v := by
  rw [matInsert_not_found h v, matFind_append_none _ h, matFind_cons_self]

theorem matFind_matInsert_of_found {m : Materials} {k k' : List Char}
    {v : SubsystemMaterial} (h : matFind m k = some v) (w : SubsystemMaterial) :
    matFind (matInsert m k' w) k = some v := by
  rw [matInsert]
  split
  · exact h
  · exact matFind_append_left _ h

theorem matFind_matPush_ne {m : Materials} {kk k : List Char}
    (h : kk ≠ k) (vals : List (List Char)) :
    matFind (matPush m kk vals) k = matFind m k := by
  induction m with
  | nil => rfl
  | cons p m ih =>
    obtain ⟨k', v'⟩ := p
    rw [matPush]
    split
    · rename_i hk'
      subst hk'
      rw [matFind, matFind, if_neg h, if_neg h]
    · rw [matFind, matFind]
      split
      · rfl
      · exact ih

theorem matFind_matPush_self {m : Materials} {k : List Char}
    {v : SubsystemMaterial} (h : matFind m k = some v) (vals : List (List Char)) :
    matFind (matPush m k vals) k =
      some { v with properties := v.properties ++ vals } := by
  induction m with
  | nil => simp [matFind] at h
  | cons p m ih =>
    obtain ⟨k', v'⟩ := p
    rw [matFind] at h
    rw [matPush]
    split
    · rename_i hk
      rw [if_pos hk] at h
      cases h
      rw [matFind, if_pos hk]
    · rename_i hk
      rw [if_neg hk] at h
      rw [matFind, if_neg hk]
      exact ih h

theorem matPush_mem {m : Materials} {kk : List Char} {vals : List (List Char)}
    {k : List Char} {v : SubsystemMaterial} (h : (k, v) ∈ matPush m kk vals) :
    (k, v) ∈ m ∨
      ∃ v0, (k, v0) ∈ m ∧ v = { v0 with properties := v0.properties ++ vals } := by
  induction m with
  | nil => simp [matPush] at h
  | cons p m ih =>
    obtain ⟨k', v'⟩ := p
    rw [matPush] at h
    split at h
    · rcases List.mem_cons.mp h with h | h
      · cases h
        exact Or.inr ⟨v', List.mem_cons_self .., rfl⟩
      · exact Or.inl (List.mem_cons_of_mem _ h)
    · rcases List.mem_cons.mp h with h | h
      · cases h
        exact Or.inl (List.mem_cons_self ..)
      · rcases ih h with h | ⟨v0, hv0, hv⟩
        · exact Or.inl (List.mem_cons_of_mem _ h)
        · exact Or.inr ⟨v0, List.mem_cons_of_mem _ hv0, hv⟩

theorem matInsert_mem {m : Materials} {kk : List Char} {w : SubsystemMaterial}
    {k : List Char} {v : SubsystemMaterial} (h : (k, v) ∈ matInsert m kk w) :
    (k, v) ∈ m ∨ (k = kk ∧ v = w) := by
  rw [matInsert] at h
  split at h
  · exact Or.inl h
  · rcases List.mem_append.mp h with h | h
    · exact Or.inl h
    · rcases List.mem_singleton.mp h with h
      cases h
      exact Or.inr ⟨rfl, rfl⟩

/-! ## State-machine branch lemmas -/

theorem processLine_skip (st : ParseState) (line : List Char)
    (h : line = [] ∨ line.headD nul = '!' ∨ line.headD nul = '(' ∨
         line.headD nul = ')') :
    processLine st line = st := by
  rcases h with rfl | h | h | h
  · rfl
  · simp only [processLine]
    rw [if_pos h]
  · simp only [processLine]
    rw [if_neg (by rw [h]; decide), if_pos h]
  · simp only [processLine]
    rw [if_neg (by rw [h]; decide), if_neg (by rw [h]; decide), if_pos h]

theorem processLine_header (st : ParseState) (line : List Char)
    (h1 : st.lineCount = 1) (h2 : line ≠ [])
    (h3 : line.headD nul ≠ '!') (h4 : line.headD nul ≠ '(')
    (h5 : line.headD nul ≠ ')') :
    processLine st line =
      { materials := matInsert st.materials
          (headerExtract st.currentSubsystemId st.currentType line).1
          ⟨(headerExtract st.currentSubsystemId st.currentType line).1,
           (headerExtract st.currentSubsystemId st.currentType line).2, []⟩,
        currentSubsystemId :=
          (headerExtract st.currentSubsystemId st.currentType line).1,
        currentType :=
          (headerExtract st.currentSubsystemId st.currentType line).2,
        lineCount := 2 } := by
  simp only [processLine]
  rw [if_neg h3, if_neg h4, if_neg h5,
    if_pos ⟨by simpa [List.isEmpty_iff] using h2, h4, h3, h1⟩]

theorem processLine_props (st : ParseState) (line : List Char)
    (h1 : st.lineCount = 2) (h2 : line ≠ [])
    (h3 : line.headD nul ≠ '!') (h4 : line.headD nul ≠ '(')
    (h5 : line.headD nul ≠ ')') :
    processLine st line =
      { st with
        materials := matPush st.materials st.currentSubsystemId (readProps line),
        lineCount := 1 } := by
  simp only [processLine]
  rw [if_neg h3, if_neg h4, if_neg h5,
    if_neg (by rintro ⟨-, -, -, hlc⟩; rw [h1] at hlc; exact absurd hlc (by decide)),
    if_pos ⟨by simpa [List.isEmpty_iff] using h2, h4, h3, h1⟩]

/-! ## Manifest loop lemmas -/

theorem roleSlot_setRole_same (fm : FileManager) (r : Role) (p : List Char) :
    roleSlot r (setRole fm r p) = setSlot (roleSlot r fm) p := by
  cases r <;> rfl

theorem roleSlot_setRole_ne (fm : FileManager) {r r' : Role} (h : r' ≠ r)
    (p : List Char) : roleSlot r (setRole fm r' p) = roleSlot r fm := by
  cases r <;> cases r' <;> first | rfl | exact absurd rfl h

theorem stepManifest_keeps_some {ex : List Char → Bool} {fm : FileManager}
    {l : List Char} {r : Role} {p : List Char} (h : roleSlot r fm = some p) :
    roleSlot r (stepManifest ex fm l) = some p := by
  rw [stepManifest]
  split
  · exact h
  · split
    · rename_i r' heq
      split
      · by_cases hr : r' = r
        · subst hr
          rw [roleSlot_setRole_same, h]
          rfl
        · rw [roleSlot_setRole_ne fm hr]
          exact h
      · exact h
    · exact h

theorem foldl_stepManifest_keeps_some {ex : List Char → Bool} {r : Role}
    {p : List Char} :
    ∀ (lines : List (List Char)) (fm : FileManager), roleSlot r fm = some p →
      roleSlot r (lines.foldl (stepManifest ex) fm) = some p := by
  intro lines
  induction lines with
  | nil => intro fm h; exact h
  | cons l ls ih =>
    intro fm h
    rw [List.foldl_cons]
    exact ih _ (stepManifest_keeps_some h)

theorem stepManifest_accept {ex : List Char → Bool} {fm : FileManager}
    {l : List Char} {r : Role} (hacc : accepted ex r l = true)
    (hnone : roleSlot r fm = none) :
    roleSlot r (stepManifest ex fm l) = some l := by
  simp only [accepted, Bool.and_eq_true, beq_iff_eq] at hacc
  obtain ⟨⟨hC, hrole⟩, hex⟩ := hacc
  rw [stepManifest, if_neg (fun hne => hne hC), hrole]
  show roleSlot r (if ex (checkedPath l) = true then setRole fm r l else fm) =
    some l
  rw [if_pos hex, roleSlot_setRole_same, hnone]
  rfl

theorem stepManifest_not_accept {ex : List Char → Bool} {fm : FileManager}
    {l : List Char} {r : Role} (h : accepted ex r l = false) :
    roleSlot r (stepManifest ex fm l) = roleSlot r fm := by
  rw [stepManifest]
  split
  · rfl
  · rename_i hC
    split
    · rename_i r' heq
      split
      · rename_i hex
        by_cases hr : r' = r
        · subst hr
          have hacc : accepted ex r' l = true := by
            rw [accepted, not_not.mp hC, heq, hex]
            simp
          rw [h] at hacc
          exact absurd hacc (by decide)
        · exact roleSlot_setRole_ne fm hr l
      · rfl
    · rfl

theorem runManifest_find {ex : List Char → Bool} :
    ∀ (lines : List (List Char)) (fm : FileManager) (r : Role),
      roleSlot r fm = none →
      roleSlot r (lines.foldl (stepManifest ex) fm) =
        lines.find? (accepted ex r) := by
  intro lines
  induction lines with
  | nil => intro fm r h; simpa using h
  | cons l ls ih =>
    intro fm r h
    rw [List.foldl_cons]
    cases hacc : accepted ex r l with
    | true =>
      rw [List.find?_cons_of_pos _ hacc]
      exact foldl_stepManifest_keeps_some ls _ (stepManifest_accept hacc h)
    | false =>
      rw [List.find?_cons_of_neg _ (by simp [hacc])]
      exact ih _ _ (by rw [stepManifest_not_accept hacc]; exact h)

theorem roleSlot_empty (r : Role) : roleSlot r {} = none := by
  cases r <;> rfl

/-! ## Parse-state persistence and key invariants -/

theorem matKeyInv_matInsert {m : Materials} {k : List Char} {v : SubsystemMaterial}
    (h : matKeyInv m) (hv : v.subsystemId = k) : matKeyInv (matInsert m k v) := by
  intro k' v' hm
  rcases matInsert_mem hm with hm | ⟨rfl, rfl⟩
  · exact h k' v' hm
  · exact hv

theorem matKeyInv_matPush {m : Materials} {k : List Char} {vals : List (List Char)}
    (h : matKeyInv m) : matKeyInv (matPush m k vals) := by
  intro k' v' hm
  rcases matPush_mem hm with hm | ⟨v0, hv0, rfl⟩
  · exact h k' v' hm
  · exact h k' v0 hv0

theorem processLine_keyInv (st : ParseState) (line : List Char)
    (h : matKeyInv st.materials) : matKeyInv (processLine st line).materials := by
  simp only [processLine]
  split
  · exact h
  · split
    · exact h
    · split
      · exact h
      · split
        · exact matKeyInv_matInsert h rfl
        · split
          · exact matKeyInv_matPush h
          · exact h

theorem foldl_processLine_keyInv :
    ∀ (lines : List (List Char)) (st : ParseState), matKeyInv st.materials →
      matKeyInv ((lines.foldl processLine st).materials) := by
  intro lines
  induction lines with
  | nil => intro st h; exact h
  | cons l ls ih =>
    intro st h
    rw [List.foldl_cons]
    exact ih _ (processLine_keyInv st l h)

theorem processLine_persist (st : ParseState) (line : List Char)
    {k : List Char} {v : SubsystemMaterial}
    (h : matFind st.materials k = some v) :
    ∃ ext, matFind (processLine st line).materials k =
      some ⟨v.subsystemId, v.type, v.properties ++ ext⟩ := by
  simp only [processLine]
  split
  · exact ⟨[], by simpa using h⟩
  · split
    · exact ⟨[], by simpa using h⟩
    · split
      · exact ⟨[], by simpa using h⟩
      · split
        · exact ⟨[], by simpa using matFind_matInsert_of_found h _⟩
        · split
          · by_cases hk : st.currentSubsystemId = k
            · subst hk
              exact ⟨readProps line, by
                rw [matFind_matPush_self h]⟩
            · exact ⟨[], by rw [matFind_matPush_ne hk]; simpa using h⟩
          · exact ⟨[], by simpa using h⟩

theorem foldl_processLine_persist :
    ∀ (lines : List (List Char)) (st : ParseState) (k : List Char)
      (v : SubsystemMaterial), matFind st.materials k = some v →
      ∃ ext, matFind ((lines.foldl processLine st).materials) k =
        some ⟨v.subsystemId, v.type, v.properties ++ ext⟩ := by
  intro lines
  induction lines with
  | nil =>
    intro st k v h
    exact ⟨[], by simpa using h⟩
  | cons l ls ih =>
    intro st k v h
    rw [List.foldl_cons]
    obtain ⟨e1, he1⟩ := processLine_persist st l h
    obtain ⟨e2, he2⟩ := ih (processLine st l) k _ he1
    refine ⟨e1 ++ e2, ?_⟩
    rw [he2]
    simp [List.append_assoc]

theorem find?_first {α : Type} (p : α → Bool) :
    ∀ (pre : List α) (x : α) (rest : List α), p x = true →
      (∀ l ∈ pre, p l = false) → List.find? p (pre ++ x :: rest) = some x := by
  intro pre
  induction pre with
  | nil =>
    intro x rest hx _
    rw [List.nil_append, List.find?_cons_of_pos _ hx]
  | cons q pre ih =>
    intro x rest hx hpre
    rw [List.cons_append,
      List.find?_cons_of_neg _ (by simp [hpre q (List.mem_cons_self ..)])]
    exact ih x rest hx fun l hl => hpre l (List.mem_cons_of_mem _ hl)

/-! ## Claim theorems -/

/-- C6 (confirmed): when the file cannot be opened, readMatFile writes
the human-readable diagnostic "Failed to open file: " followed by the
path to std::cerr and returns at once: the member map is untouched (no
records are added on this error path), so on a fresh reader the mapping
produced by the call is empty.  The model is a total function, so the
call neither throws nor terminates the process. -/
theorem c6_open_failure :
    ∀ (rdr : MatFileReader) (filename : List Char),
      (readMatFile rdr filename none).1 = rdr ∧
      (readMatFile rdr filename none).2 = [openFailMsg filename] ∧
      (readMatFile { materials := [] } filename none).1.materials = [] :=
  fun _ _ => ⟨rfl, rfl, rfl⟩

/-- C8 (confirmed): a blank line, a comment line (first character !) or
a bracket-marker line (first character ( or )) leaves the whole parse
state unchanged: the HEADER/PROPERTIES phase (lineCount), the current
id and type, and the output mapping are exactly as before, so such
lines never advance the cycle, never create a record, and never
contribute tokens to any field. -/
theorem c8_skip_lines_frame (st : ParseState) (line : List Char)
    (h : line = [] ∨ line.headD nul = '!' ∨ line.headD nul = '(' ∨
         line.headD nul = ')') :
    processLine st line = st :=
  processLine_skip st line h

theorem c8_witness :
    processLine ⟨[], [], [], 1⟩ ("!comment").data = ⟨[], [], [], 1⟩ ∧
    processLine ⟨[], [], [], 1⟩ [] = ⟨[], [], [], 1⟩ ∧
    processLine ⟨[], [], [], 1⟩ ("(FREQVAL").data = ⟨[], [], [], 1⟩ ∧
    processLine ⟨[], [], [], 1⟩ (")end").data = ⟨[], [], [], 1⟩ :=
  ⟨c8_skip_lines_frame _ _ (Or.inr (Or.inl (by decide))),
   c8_skip_lines_frame _ _ (Or.inl rfl),
   c8_skip_lines_frame _ _ (Or.inr (Or.inr (Or.inl (by decide)))),
   c8_skip_lines_frame _ _ (Or.inr (Or.inr (Or.inr (by decide))))⟩

/-- C10 (confirmed): every key-record pair (k, r) of a mapping returned
by readMatFile satisfies r.subsystemId = k — the header branch inserts
the record under its own id and the properties branch never changes an
id — and the invariant is preserved by every single processed line. -/
theorem c10_key_invariant :
    (∀ (filename : List Char) (content : Option (List (List Char))),
      matKeyInv (readMatFile { materials := [] } filename content).1.materials) ∧
    (∀ (st : ParseState) (line : List Char), matKeyInv st.materials →
      matKeyInv (processLine st line).materials) := by
  constructor
  · intro filename content
    cases content with
    | none => exact fun _ _ h => absurd h (List.not_mem_nil _)
    | some lines =>
      exact foldl_processLine_keyInv lines (initState [])
        fun _ _ h => absurd h (List.not_mem_nil _)
  · exact fun st line h => processLine_keyInv st line h

theorem c10_witness :
    matKeyInv (processLine ⟨[], [], [], 1⟩ ("A T").data).materials :=
  c10_key_invariant.2 ⟨[], [], [], 1⟩ ("A T").data
    fun _ _ h => absurd h (List.not_mem_nil _)

/-- C5 counterexample: the member map is never cleared, so a second
readMatFile call on a fresh file still contains the first file's
record; a single call on a fresh reader does not.  This refutes the
claim that a parse call's mapping depends only on the file's contents
(rebuilt wholesale). -/
theorem c5_counterexample :
    (readMatFile
        (readMatFile { materials := [] } [] (some [("A T").data, ("1").data])).1
        [] (some [("B U").data, ("2").data])).1.materials ≠
      (readMatFile { materials := [] } []
        (some [("B U").data, ("2").data])).1.materials := by
  decide

/-- C5 amended: readMatFile extends the member map in place instead of
rebuilding it: every entry present before the call is still found after
it, with the same subsystemId and the same type, and with its
properties sequence possibly extended (a duplicate header in the new
file appends that record's properties to the surviving entry).  The
mapping after a call therefore depends on the reader's parse history,
not only on the file's contents. -/
theorem c5_amended_parse_extends_mapping
    (rdr : MatFileReader) (filename : List Char) (lines : List (List Char))
    (k : List Char) (v : SubsystemMaterial)
    (h : matFind rdr.materials k = some v) :
    ∃ ext, matFind (readMatFile rdr filename (some lines)).1.materials k =
      some ⟨v.subsystemId, v.type, v.properties ++ ext⟩ :=
  foldl_processLine_persist lines (initState rdr.materials) k v h

theorem c5_amended_witness :
    ∃ ext,
      matFind (readMatFile
          { materials := [(("A").data, ⟨("A").data, ("T").data, []⟩)] }
          [] (some [("B U").data, ("2").data])).1.materials ("A").data =
        some ⟨("A").data, ("T").data, [] ++ ext⟩ :=
  c5_amended_parse_extends_mapping
    { materials := [(("A").data, ⟨("A").data, ("T").data, []⟩)] }
    [] [("B U").data, ("2").data] ("A").data ⟨("A").data, ("T").data, []⟩
    (by decide)

/-- C4 (confirmed, FileManager modelled from the spec): in main's
manifest loop, when several lines classify to the same role (via the
else-if extension chain) and pass the existence check, the role's slot
in the final FileManager holds the path of the FIRST such line; a later
accepted line never displaces it. -/
theorem c4_first_accepted_wins (ex : List Char → Bool)
    (pre mid post : List (List Char)) (l1 l2 : List Char) (r : Role)
    (hacc1 : accepted ex r l1 = true) (_hacc2 : accepted ex r l2 = true)
    (hpre : ∀ l ∈ pre, accepted ex r l = false) :
    roleSlot r (runManifest ex (pre ++ l1 :: (mid ++ l2 :: post))) = some l1 := by
  rw [runManifest, runManifest_find _ _ r (roleSlot_empty r)]
  exact find?_first _ pre l1 (mid ++ l2 :: post) hacc1 hpre

theorem c4_witness :
    roleSlot Role.mat (runManifest (fun _ => true)
      [("C:\\seamInputFiles\\a.mat").data, ("C:\\seamInputFiles\\b.mat").data]) =
      some ("C:\\seamInputFiles\\a.mat").data :=
  c4_first_accepted_wins (fun _ => true) [] [] []
    ("C:\\seamInputFiles\\a.mat").data ("C:\\seamInputFiles\\b.mat").data
    Role.mat (by decide) (by decide)
    fun l hl => absurd hl (List.not_mem_nil _)

theorem tokenize_ne_nil {line : List Char} {t : List Char} {ts : List (List Char)}
    (h : tokenize line = t :: ts) : line ≠ [] := by
  intro hz
  rw [hz] at h
  simp [tokenize, tokenizeF] at h

theorem processLine_header_tokens (st : ParseState) (line id ty : List Char)
    (r : List (List Char)) (hlc : st.lineCount = 1)
    (htok : tokenize line = id :: ty :: r)
    (h3 : line.headD nul ≠ '!') (h4 : line.headD nul ≠ '(')
    (h5 : line.headD nul ≠ ')') :
    processLine st line =
      ⟨matInsert st.materials id ⟨id, ty, []⟩, id, ty, 2⟩ := by
  rw [processLine_header st line hlc (tokenize_ne_nil htok) h3 h4 h5]
  have hpr : headerExtract st.currentSubsystemId st.currentType line = (id, ty) := by
    simp only [headerExtract, htok]
  rw [hpr]

theorem processLine_header_one (st : ParseState) (line t0 : List Char)
    (hlc : st.lineCount = 1) (htok : tokenize line = [t0])
    (h3 : line.headD nul ≠ '!') (h4 : line.headD nul ≠ '(')
    (h5 : line.headD nul ≠ ')') :
    processLine st line =
      ⟨matInsert st.materials t0 ⟨t0, st.currentType, []⟩, t0,
       st.currentType, 2⟩ := by
  rw [processLine_header st line hlc (tokenize_ne_nil htok) h3 h4 h5]
  have hpr : headerExtract st.currentSubsystemId st.currentType line =
      (t0, st.currentType) := by
    simp only [headerExtract, htok]
  rw [hpr]

/-- C1 counterexample: in the file A T1 / 1.0 / A T2 / 2.0 the two
header lines share the id A; the stored record keeps the EARLIER type
T1 and accumulates both properties lines, so it is not the later
record (id A, type T2, properties [2.0]) the claim promises. -/
theorem c1_counterexample :
    matFind (parseFile [("A T1").data, ("1.0").data, ("A T2").data, ("2.0").data])
        ("A").data =
      some ⟨("A").data, ("T1").data, [("1.0").data, ("2.0").data]⟩ ∧
    (⟨("A").data, ("T1").data, [("1.0").data, ("2.0").data]⟩ : SubsystemMaterial) ≠
      ⟨("A").data, ("T2").data, [("2.0").data]⟩ :=
  ⟨by decide, by decide⟩

/-- C1 amended: for a file of two two-line records whose header lines
share the same subsystemId, the mapping holds exactly one record under
that id; the record keeps the EARLIER header's id and type
(std::map::insert never overwrites), and its properties are the first
record's numeric lexemes followed by the second record's (the later
properties line appends to the surviving record — no replacement, no
merge of types). -/
theorem c1_amended_duplicate_keeps_first
    (h1 p1 h2 p2 id t1 t2 : List Char) (r1 r2 : List (List Char))
    (htok1 : tokenize h1 = id :: t1 :: r1)
    (htok2 : tokenize h2 = id :: t2 :: r2)
    (hh1 : h1.headD nul ≠ '!' ∧ h1.headD nul ≠ '(' ∧ h1.headD nul ≠ ')')
    (hh2 : h2.headD nul ≠ '!' ∧ h2.headD nul ≠ '(' ∧ h2.headD nul ≠ ')')
    (hp1 : p1 ≠ [] ∧ p1.headD nul ≠ '!' ∧ p1.headD nul ≠ '(' ∧ p1.headD nul ≠ ')')
    (hp2 : p2 ≠ [] ∧ p2.headD nul ≠ '!' ∧ p2.headD nul ≠ '(' ∧ p2.headD nul ≠ ')') :
    parseFile [h1, p1, h2, p2] =
      [(id, ⟨id, t1, readProps p1 ++ readProps p2⟩)] := by
  have e1 : processLine ⟨[], [], [], 1⟩ h1 = ⟨[(id, ⟨id, t1, []⟩)], id, t1, 2⟩ := by
    rw [processLine_header_tokens _ h1 id t1 r1 rfl htok1 hh1.1 hh1.2.1 hh1.2.2]
    simp [matInsert, matFind]
  have e2 : processLine ⟨[(id, ⟨id, t1, []⟩)], id, t1, 2⟩ p1 =
      ⟨[(id, ⟨id, t1, readProps p1⟩)], id, t1, 1⟩ := by
    rw [processLine_props _ p1 rfl hp1.1 hp1.2.1 hp1.2.2.1 hp1.2.2.2]
    simp [matPush]
  have e3 : processLine ⟨[(id, ⟨id, t1, readProps p1⟩)], id, t1, 1⟩ h2 =
      ⟨[(id, ⟨id, t1, readProps p1⟩)], id, t2, 2⟩ := by
    rw [processLine_header_tokens _ h2 id t2 r2 rfl htok2 hh2.1 hh2.2.1 hh2.2.2]
    simp [matInsert, matFind]
  have e4 : processLine ⟨[(id, ⟨id, t1, readProps p1⟩)], id, t2, 2⟩ p2 =
      ⟨[(id, ⟨id, t1, readProps p1 ++ readProps p2⟩)], id, t2, 1⟩ := by
    rw [processLine_props _ p2 rfl hp2.1 hp2.2.1 hp2.2.2.1 hp2.2.2.2]
    simp [matPush]
  show (([h1, p1, h2, p2].foldl processLine ⟨[], [], [], 1⟩)).materials = _
  rw [List.foldl_cons, e1, List.foldl_cons, e2, List.foldl_cons, e3,
    List.foldl_cons, e4, List.foldl_nil]

theorem c1_amended_witness :
    parseFile [("A T1").data, ("1.0").data, ("A T2").data, ("2.0").data] =
      [(("A").data, ⟨("A").data, ("T1").data,
        readProps ("1.0").data ++ readProps ("2.0").data⟩)] :=
  c1_amended_duplicate_keeps_first ("A T1").data ("1.0").data ("A T2").data
    ("2.0").data ("A").data ("T1").data ("T2").data [] []
    (by decide) (by decide) ⟨by decide, by decide, by decide⟩
    ⟨by decide, by decide, by decide⟩
    ⟨by decide, by decide, by decide, by decide⟩
    ⟨by decide, by decide, by decide, by decide⟩

/-- C7 counterexample: the file A T1 / 1.0 / B / 2.0 has a header line
B with a single token; the record created for B carries the PREVIOUS
header's materialType T1 (the failed second extraction leaves
currentType unchanged), not the empty string the claim promises. -/
theorem c7_counterexample :
    matFind (parseFile [("A T1").data, ("1.0").data, ("B").data, ("2.0").data])
        ("B").data =
      some ⟨("B").data, ("T1").data, [("2.0").data]⟩ ∧
    ("T1").data ≠ ([] : List Char) :=
  ⟨by decide, by decide⟩

/-- C7 amended: a header line with a single whitespace token is
tolerated without error: a record keyed by that token is inserted (when
the id is new) and the parse moves to the PROPERTIES phase; but the
record's materialType is the most recently extracted type — the value
the currentType variable already held — which is the empty string only
while no earlier header line has supplied a type (currentType starts
empty in initState). -/
theorem c7_amended_short_header (st : ParseState) (line t0 : List Char)
    (hlc : st.lineCount = 1) (htok : tokenize line = [t0])
    (hh : line.headD nul ≠ '!' ∧ line.headD nul ≠ '(' ∧ line.headD nul ≠ ')')
    (hnew : matFind st.materials t0 = none) :
    processLine st line =
      ⟨matInsert st.materials t0 ⟨t0, st.currentType, []⟩, t0,
       st.currentType, 2⟩ ∧
    matFind (processLine st line).materials t0 = some ⟨t0, st.currentType, []⟩ ∧
    (initState st.materials).currentType = [] := by
  have hstep := processLine_header_one st line t0 hlc htok hh.1 hh.2.1 hh.2.2
  refine ⟨hstep, ?_, rfl⟩
  rw [hstep]
  exact matFind_matInsert_self hnew _

theorem c7_amended_witness :
    processLine ⟨[], [], ("T1").data, 1⟩ ("B").data =
      ⟨matInsert [] ("B").data ⟨("B").data, ("T1").data, []⟩, ("B").data,
       ("T1").data, 2⟩ ∧
    matFind (processLine ⟨[], [], ("T1").data, 1⟩ ("B").data).materials
        ("B").data = some ⟨("B").data, ("T1").data, []⟩ ∧
    (initState ([] : Materials)).currentType = [] :=
  c7_amended_short_header ⟨[], [], ("T1").data, 1⟩ ("B").data ("B").data
    rfl (by decide) ⟨by decide, by decide, by decide⟩ (by decide)

/-- C9 counterexample: in the file A T / 1.0 / A T2 the last non-skipped
line A T2 is consumed in HEADER state, but its id A already names a
record with properties [1.0]; the insert is a no-op, so the mapping does
NOT contain a record for that id with an empty properties sequence. -/
theorem c9_counterexample :
    matFind (parseFile [("A T").data, ("1.0").data, ("A T2").data]) ("A").data =
      some ⟨("A").data, ("T").data, [("1.0").data]⟩ ∧
    [("1.0").data] ≠ ([] : List (List Char)) :=
  ⟨by decide, by decide⟩

/-- C9 amended: when the last line of the file is consumed in HEADER
state (end-of-input follows the header), the parse ends without any
error output, and — provided the header's subsystemId is not already in
the mapping — the mapping holds a record for it with an empty
properties sequence; a pre-existing record under the same id survives
unchanged instead. -/
theorem c9_amended_trailing_header
    (lines : List (List Char)) (hdr id ty : List Char) (r : List (List Char))
    (hlc : (lines.foldl processLine (initState [])).lineCount = 1)
    (htok : tokenize hdr = id :: ty :: r)
    (hh : hdr.headD nul ≠ '!' ∧ hdr.headD nul ≠ '(' ∧ hdr.headD nul ≠ ')')
    (hnew : matFind (lines.foldl processLine (initState [])).materials id = none) :
    matFind (parseFile (lines ++ [hdr])) id = some ⟨id, ty, []⟩ ∧
    (readMatFile { materials := [] } [] (some (lines ++ [hdr]))).2 = [] := by
  constructor
  · show matFind (((lines ++ [hdr]).foldl processLine (initState [])).materials)
      id = _
    rw [List.foldl_append, List.foldl_cons, List.foldl_nil,
      processLine_header_tokens _ hdr id ty r hlc htok hh.1 hh.2.1 hh.2.2]
    exact matFind_matInsert_self hnew _
  · rfl

theorem c9_amended_witness :
    matFind (parseFile [("B U").data, ("1").data, ("A T").data]) ("A").data =
      some ⟨("A").data, ("T").data, []⟩ ∧
    (readMatFile { materials := [] } []
      (some [("B U").data, ("1").data, ("A T").data])).2 = [] :=
  c9_amended_trailing_header [("B U").data, ("1").data] ("A T").data
    ("A").data ("T").data [] (by decide) (by decide)
    ⟨by decide, by decide, by decide⟩ (by decide)

/-- C3 counterexample: on the properties line 1.5,2.5 9 the first
whitespace token 1.5,2.5 does not parse as a number, so the claim
predicts an empty properties sequence (truncate at the first failing
token, drop the rest); the code instead consumes the numeric prefix
1.5 of that token before stopping. -/
theorem c3_counterexample :
    matFind (parseFile [("A T").data, ("1.5,2.5 9").data]) ("A").data =
      some ⟨("A").data, ("T").data, [("1.5").data]⟩ ∧
    specNumericTokenTruncation ("1.5,2.5 9").data = [] ∧
    [("1.5").data] ≠ ([] : List (List Char)) :=
  ⟨by decide, by decide, by decide⟩

/-- C3 amended: for a well-formed two-line record whose properties-line
tokens are each either wholly numeric (one double extraction consumes
the entire token) or numeric-free at their start (the extraction fails
outright), the record's properties equal the whitespace tokens that
parse as numbers, left to right, truncated at the first token that
fails — exactly the claim's description.  A partially numeric token is
the one divergence: the code consumes its numeric prefix before
stopping (see the counterexample). -/
theorem c3_amended_clean_tokens (hdr p id ty : List Char) (r : List (List Char))
    (htok : tokenize hdr = id :: ty :: r)
    (hh : hdr.headD nul ≠ '!' ∧ hdr.headD nul ≠ '(' ∧ hdr.headD nul ≠ ')')
    (hp : p ≠ [] ∧ p.headD nul ≠ '!' ∧ p.headD nul ≠ '(' ∧ p.headD nul ≠ ')')
    (hclean : ∀ t ∈ tokenize p, parseNum t = some (t, []) ∨ parseNum t = none) :
    matFind (parseFile [hdr, p]) id = some ⟨id, ty, specNumericTokenTruncation p⟩ := by
  have e1 : processLine ⟨[], [], [], 1⟩ hdr = ⟨[(id, ⟨id, ty, []⟩)], id, ty, 2⟩ := by
    rw [processLine_header_tokens _ hdr id ty r rfl htok hh.1 hh.2.1 hh.2.2]
    simp [matInsert, matFind]
  have e2 : processLine ⟨[(id, ⟨id, ty, []⟩)], id, ty, 2⟩ p =
      ⟨[(id, ⟨id, ty, specNumericTokenTruncation p⟩)], id, ty, 1⟩ := by
    rw [processLine_props _ p rfl hp.1 hp.2.1 hp.2.2.1 hp.2.2.2]
    simp [matPush, readProps_eq_specTrunc p hclean]
  show matFind (([hdr, p].foldl processLine ⟨[], [], [], 1⟩).materials) id = _
  rw [List.foldl_cons, e1, List.foldl_cons, e2, List.foldl_nil]
  exact matFind_cons_self ..

theorem c3_amended_witness :
    matFind (parseFile [("1011 ISOELASTIC steel").data,
        ("7.85e-6 2.07e8 8.0e7 0.3 panel_b").data]) ("1011").data =
      some ⟨("1011").data, ("ISOELASTIC").data,
        specNumericTokenTruncation ("7.85e-6 2.07e8 8.0e7 0.3 panel_b").data⟩ :=
  c3_amended_clean_tokens ("1011 ISOELASTIC steel").data
    ("7.85e-6 2.07e8 8.0e7 0.3 panel_b").data ("1011").data
    ("ISOELASTIC").data [("steel").data]
    (by decide) ⟨by decide, by decide, by decide⟩
    ⟨by decide, by decide, by decide, by decide⟩
    (by decide)

/-- C2 (code slip): the format documentation embedded in MatFileReader.h
states that records "can be entered either as formatted records or in a
free format with comma delimiters between fields", but the reader
tokenizes with istream extraction, which splits on whitespace only.
Replacing the separators of the documented example record by commas
collapses the whole header into the subsystemId token (with an empty
type) and leaves only the first numeric value, so the comma-delimited
variant does NOT parse to an identical record. -/
theorem c2_comma_divergence :
    parseFile [("1011 ISOELASTIC steel").data,
               ("7.85e-6 2.07e8 8.0e7 0.3").data] =
      [(("1011").data,
        ⟨("1011").data, ("ISOELASTIC").data,
         [("7.85e-6").data, ("2.07e8").data, ("8.0e7").data, ("0.3").data]⟩)] ∧
    parseFile [("1011,ISOELASTIC,steel").data,
               ("7.85e-6,2.07e8,8.0e7,0.3").data] =
      [(("1011,ISOELASTIC,steel").data,
        ⟨("1011,ISOELASTIC,steel").data, [], [("7.85e-6").data]⟩)] ∧
    parseFile [("1011 ISOELASTIC steel").data,
               ("7.85e-6 2.07e8 8.0e7 0.3").data] ≠
      parseFile [("1011,ISOELASTIC,steel").data,
                 ("7.85e-6,2.07e8,8.0e7,0.3").data] :=
  ⟨by decide, by decide, by decide⟩
